import Mathlib

/-!
Verification development for the size-string parser of `cosmic_ray_detection`
(`src/config.rs`).  The parser `parse_size_string` turns strings such as
"200", "5kB", "2GB" or "3Mb" into a positive byte count (`NonZeroUsize`), or a
descriptive error string.

Modelling conventions:
* Rust strings are modelled as `List Char` (the sequence of Unicode scalar
  values, matching `str::chars()`).
* `usize` is taken to be 64 bits wide; `USIZE_MAX = 2^64 - 1`.
* `f64` is modelled exactly: a value is either NaN, a signed infinity, or a
  finite rational lying on the IEEE-754 binary64 grid.  All operations the
  source performs (decimal-string conversion, multiplication, division by 8)
  are correctly rounded to nearest, ties to even, exactly as IEEE-754 and
  Rust specify, including overflow to infinity and the saturating
  `as usize` cast.
* `str::split_at` takes a *byte* index and panics off a char boundary; the
  model returns `Option`, with `none` marking the panic, so that
  panic-freedom is a provable statement rather than an artifact.
-/

/-! ## Characters and digit strings -/

/-- Model of `char::is_ascii_digit`. -/
def isAsciiDigit (c : Char) : Bool := 48 ≤ c.toNat && c.toNat ≤ 57

/-- Numeric value of an ASCII digit character. -/
def digitVal (c : Char) : Nat := c.toNat - 48

/-- The ASCII digit character for `n < 10`. -/
def digitChar (n : Nat) : Char := Char.ofNat (48 + n)

/-- Decimal decoding of a digit string, most significant digit first. -/
def decodeDigits (s : List Char) : Nat :=
  s.foldl (fun a c => a * 10 + digitVal c) 0

/-- Number of bytes of the UTF-8 encoding of a scalar value
(model of `char::len_utf8`). -/
def utf8Len (c : Char) : Nat :=
  if c.toNat ≤ 127 then 1
  else if c.toNat ≤ 2047 then 2
  else if c.toNat ≤ 65535 then 3
  else 4

/-- Maximum value of `usize` on a 64-bit target. -/
def USIZE_MAX : Nat := 18446744073709551615

/-- Strip one leading sign character `+`, as `usize::from_str` permits. -/
def stripPlus : List Char → List Char
  | c :: r => if c = '+' then r else c :: r
  | [] => []

/-- Model of `str::parse::<usize>()` (i.e. `usize::from_str`): an optional
leading `+`, then one or more ASCII digits, with the value fitting in
`usize`; anything else (including overflow) is an error, here `none`. -/
def parseUsize (s : List Char) : Option Nat :=
  if stripPlus s = [] then none
  else if (stripPlus s).all isAsciiDigit then
    if decodeDigits (stripPlus s) ≤ USIZE_MAX then some (decodeDigits (stripPlus s))
    else none
  else none

/-- Decimal digits of `n`, most significant first (the text produced by
formatting a `usize`).  Implemented with fuel `n + 1`, which is always
sufficient since the argument shrinks by a factor of ten each step. -/
def natDigitsAux : Nat → Nat → List Char → List Char
  | 0, _, acc => acc
  | fuel + 1, n, acc =>
    if n < 10 then digitChar (n % 10) :: acc
    else natDigitsAux fuel (n / 10) (digitChar (n % 10) :: acc)

/-- Decimal representation of a natural number. -/
def natDigits (n : Nat) : List Char := natDigitsAux (n + 1) n []

/-! ## Exact model of IEEE-754 binary64 (`f64`) -/

/-- Base-two logarithm of a positive natural number, rounded down.
Fuel-based so that it evaluates by kernel reduction. -/
def nlog2Aux : Nat → Nat → Nat
  | 0, _ => 0
  | fuel + 1, n => if n ≤ 1 then 0 else nlog2Aux fuel (n / 2) + 1

/-- Base-two logarithm, rounded down (`nlog2 0 = 0`). -/
def nlog2 (n : Nat) : Nat := nlog2Aux n n

/-- Binary exponentiation for `2 ^ n`, fuel-based and of logarithmic
recursion depth, so that it evaluates by plain reduction. -/
def pow2NatAux : Nat → Nat → Nat
  | 0, _ => 1
  | fuel + 1, n =>
    if n = 0 then 1
    else
      let h := pow2NatAux fuel (n / 2)
      if n % 2 = 0 then h * h else 2 * (h * h)

/-- The natural number `2 ^ n`. -/
def pow2Nat (n : Nat) : Nat := pow2NatAux n n

/-- The rational `2 ^ e` for an integer exponent. -/
def pow2 (e : Int) : ℚ :=
  if 0 ≤ e then ((pow2Nat e.toNat : ℕ) : ℚ) else (1 : ℚ) / ((pow2Nat (-e).toNat : ℕ) : ℚ)

/-- An `f64` value: NaN, a signed infinity, or a finite value (a rational
which the rounding function always places on the binary64 grid). -/
inductive F64 where
  | nan : F64
  | inf : Bool → F64
  | finite : ℚ → F64
deriving DecidableEq

/-- Round a rational to the nearest integer, ties to even. -/
def rne (x : ℚ) : Int :=
  if x - ⌊x⌋ < 1 / 2 then ⌊x⌋
  else if 1 / 2 < x - ⌊x⌋ then ⌊x⌋ + 1
  else if 2 ∣ ⌊x⌋ then ⌊x⌋ else ⌊x⌋ + 1

/-- Floor of the base-two logarithm of a positive rational. -/
def ratLog2Floor (q : ℚ) : Int :=
  let z0 : Int := (nlog2 q.num.toNat : Int) - (nlog2 q.den : Int)
  if q < pow2 z0 then z0 - 1 else if q < pow2 (z0 + 1) then z0 else z0 + 1

/-- Round a positive rational onto the binary64 grid with unbounded exponent
range above (the subnormal cutoff `2 ^ (-1074)` is respected below):
nearest, ties to even. -/
def roundPos (a : ℚ) : ℚ :=
  (rne (a / pow2 (max (ratLog2Floor a - 52) (-1074))) : ℚ) *
    pow2 (max (ratLog2Floor a - 52) (-1074))

/-- Correctly rounded conversion of a real (rational) value to `f64`:
round to nearest, ties to even, overflowing to infinity at `2 ^ 1024`. -/
def roundF64 (q : ℚ) : F64 :=
  if q = 0 then .finite 0
  else if pow2 1024 ≤ roundPos |q| then .inf (decide (q < 0))
  else .finite (if q < 0 then -roundPos |q| else roundPos |q|)

/-- IEEE-754 `f64` multiplication. -/
def fmul : F64 → F64 → F64
  | .nan, _ => .nan
  | _, .nan => .nan
  | .inf s, .inf t => .inf (s != t)
  | .inf s, .finite y => if y = 0 then .nan else .inf (s != decide (y < 0))
  | .finite x, .inf t => if x = 0 then .nan else .inf (decide (x < 0) != t)
  | .finite x, .finite y => roundF64 (x * y)

/-- IEEE-754 `f64` division by the exact constant `8.0`. -/
def fdiv8 : F64 → F64
  | .nan => .nan
  | .inf s => .inf s
  | .finite q => roundF64 (q / 8)

/-- Rust's saturating `as usize` cast of an `f64` (64-bit target):
truncation toward zero, clamped to `[0, USIZE_MAX]`, NaN to 0. -/
def f64AsUsize : F64 → Nat
  | .nan => 0
  | .inf s => if s then 0 else USIZE_MAX
  | .finite q => if q ≤ 0 then 0 else min (⌊q⌋.toNat) USIZE_MAX

/-- Exact decimal value denoted by a mantissa string made of digits and at
most one decimal point. -/
def decimalValue (s : List Char) : ℚ :=
  let ip := s.takeWhile isAsciiDigit
  let rest := s.dropWhile isAsciiDigit
  let fp := if rest.head? = some '.' then rest.tail else []
  (decodeDigits ip : ℚ) + (decodeDigits fp : ℚ) / (10 : ℚ) ^ fp.length

/-- Model of `str::parse::<f64>()` on the mantissa substrings that
`parse_size_string` produces.  Those substrings consist solely of ASCII
digits and `.` (every character before the split position fails the
suffix-start predicate), and on that alphabet Rust's grammar accepts the
string iff it has at least one digit and at most one decimal point; the
value is then the correctly rounded decimal.  The remainder of Rust's
float grammar (signs, exponents, inf/nan spellings) is unreachable from
this call site and is not modelled. -/
def parseF64 (s : List Char) : Option F64 :=
  if s.all (fun c => isAsciiDigit c || c == '.') && s.any isAsciiDigit &&
      decide (s.count '.' ≤ 1) then
    some (roundF64 (decimalValue s))
  else none

/-! ## The parser from `src/config.rs` -/

/-- Model of `Iterator::position`: index of the first element satisfying the
predicate. -/
def position (p : Char → Bool) : List Char → Option Nat
  | [] => none
  | c :: cs => if p c then some 0 else (position p cs).map (· + 1)

/-- The closure `|c| !c.is_ascii_digit() && c != '.'` locating the start of
the unit suffix. -/
def sizeSuffixStart (c : Char) : Bool := !(isAsciiDigit c) && !(c == '.')

/-- Model of `str::split_at` at a *byte* index: `none` models the panic when
the index is not on a char boundary (or past the end). -/
def splitAtByteIdx : List Char → Nat → Option (List Char × List Char)
  | s, 0 => some ([], s)
  | [], _ + 1 => none
  | c :: cs, i + 1 =>
    if utf8Len c ≤ i + 1 then
      (splitAtByteIdx cs (i + 1 - utf8Len c)).map (fun pr => (c :: pr.1, pr.2))
    else none

/-- Model of `Vec::pop` (specialised to the suffix character vector):
the list without its last element, together with that last element. -/
def popLast : List Char → Option (List Char × Char)
  | [] => none
  | [c] => some ([], c)
  | c :: cs => (popLast cs).map (fun pr => (c :: pr.1, pr.2))

/-- A single-quote character, used to reproduce the source's messages. -/
def quoteMark : String := String.mk [Char.ofNat 39]

def zeroValueMsg : String := "zero is not a valid value"

def suffixRequiredMsg : String := "you need to specify a suffix to use non-integer numbers"

def invalidMantissaMsg (number : List Char) : String :=
  "could not interpret " ++ quoteMark ++ String.mk number ++ quoteMark ++ " as a number"

def suffixTooLongMsg : String := "the suffix is too long, it can be at most two letters"

def invalidUnitTerminatorMsg : String :=
  "the suffix must end with either " ++ quoteMark ++ "B" ++ quoteMark ++ " or " ++ quoteMark ++ "b" ++ quoteMark ++
    " and be two characters long"

def unknownSiPrefixMsg (c : Char) : String :=
  quoteMark ++ String.mk [c] ++ quoteMark ++ " is an unsupported si prefix"

/-- Model of `parse_si_prefix` from `src/config.rs`.  The source returns the
`f64` literals `1e3 … 1e24`; each literal denotes the binary64 value nearest
the written decimal, i.e. `roundF64 (10 ^ k)`. -/
def parse_si_prefix (c : Char) : Except String F64 :=
  if c = 'k' then .ok (roundF64 (10 ^ 3))
  else if c = 'M' then .ok (roundF64 (10 ^ 6))
  else if c = 'G' then .ok (roundF64 (10 ^ 9))
  else if c = 'T' then .ok (roundF64 (10 ^ 12))
  else if c = 'P' then .ok (roundF64 (10 ^ 15))
  else if c = 'E' then .ok (roundF64 (10 ^ 18))
  else if c = 'Z' then .ok (roundF64 (10 ^ 21))
  else if c = 'Y' then .ok (roundF64 (10 ^ 24))
  else .error (unknownSiPrefixMsg c)

/-- The final `NonZeroUsize::new(num_bytes as usize).ok_or_else(|| "too small")`. -/
def finishCast (x : F64) : Except String Nat :=
  if f64AsUsize x = 0 then .error (String.mk ['t', 'o', 'o', ' ', 's', 'm', 'a', 'l', 'l'])
  else .ok (f64AsUsize x)

/-- The suffix path of `parse_size_string`, applied to the mantissa substring
and the suffix substring produced by the split. -/
def afterSplit (number suffix : List Char) : Except String Nat :=
  match parseF64 number with
  | none => .error (invalidMantissaMsg number)
  | some nb =>
    if suffix.length > 2 then .error suffixTooLongMsg
    else
      match popLast suffix with
      | some pr =>
        if pr.2 = 'B' ∨ (pr.2 = 'b' ∧ suffix.length = 2) then
          match popLast pr.1 with
          | some pr2 =>
            match parse_si_prefix pr2.2 with
            | .error e => .error e
            | .ok m =>
              finishCast (if pr.2 = 'b' then fdiv8 (fmul nb m) else fmul nb m)
          | none => finishCast (if pr.2 = 'b' then fdiv8 nb else nb)
        else .error invalidUnitTerminatorMsg
      | none => finishCast nb

/-- Model of `parse_size_string` from `src/config.rs`.  The result is
`none` exactly when the Rust code would panic (which `C8` proves never
happens), and otherwise `some` of the `Result<NonZeroUsize, String>`. -/
def parse_size_string (s : List Char) : Option (Except String Nat) :=
  match parseUsize s with
  | some t => some (if t = 0 then .error zeroValueMsg else .ok t)
  | none =>
    match position sizeSuffixStart s with
    | none => some (.error suffixRequiredMsg)
    | some index =>
      match splitAtByteIdx s index with
      | none => none
      | some pr => some (afterSplit pr.1 pr.2)

/-- Decidable equality for `Except`, needed to evaluate the parser's results
in closed form. -/
instance {ε α : Type} [DecidableEq ε] [DecidableEq α] : DecidableEq (Except ε α) :=
  fun a b =>
  match a, b with
  | .ok x, .ok y =>
    if h : x = y then .isTrue (by rw [h]) else .isFalse (by intro hc; cases hc; exact h rfl)
  | .error x, .error y =>
    if h : x = y then .isTrue (by rw [h]) else .isFalse (by intro hc; cases hc; exact h rfl)
  | .ok _, .error _ => .isFalse (by intro hc; cases hc)
  | .error _, .ok _ => .isFalse (by intro hc; cases hc)

/-- The spec's SI multiplier table for the prefixes the claims quantify
over: k, M, G, T, P stand for 1e3, 1e6, 1e9, 1e12, 1e15. -/
def siMultiplier : Char → Nat
  | 'k' => 10 ^ 3
  | 'M' => 10 ^ 6
  | 'G' => 10 ^ 9
  | 'T' => 10 ^ 12
  | 'P' => 10 ^ 15
  | _ => 1

/-! ## Groundwork lemmas -/

attribute [local semireducible] Rat.add Rat.mul Rat.sub Rat.inv Rat.ofScientific

set_option maxRecDepth 40000

lemma pow2NatAux_eq : ∀ fuel n, n ≤ fuel → pow2NatAux fuel n = 2 ^ n := by
  intro fuel
  induction fuel with
  | zero =>
    intro n hn
    have : n = 0 := by omega
    subst this
    rfl
  | succ fuel ih =>
    intro n hn
    simp only [pow2NatAux]
    by_cases h0 : n = 0
    · simp [h0]
    · have hdiv : n / 2 ≤ fuel := by omega
      simp only [h0, if_false]
      rw [ih _ hdiv, ← pow_add]
      by_cases h2 : n % 2 = 0
      · rw [if_pos h2]
        congr 1
        omega
      · rw [if_neg h2]
        calc 2 * 2 ^ (n / 2 + n / 2) = 2 ^ (n / 2 + n / 2 + 1) := by ring
        _ = 2 ^ n := by congr 1; omega

lemma pow2Nat_eq (n : Nat) : pow2Nat n = 2 ^ n := pow2NatAux_eq n n le_rfl

lemma pow2_eq_zpow (e : Int) : pow2 e = (2 : ℚ) ^ e := by
  unfold pow2
  split
  · rename_i h
    rw [pow2Nat_eq]
    push_cast
    rw [← zpow_natCast, Int.toNat_of_nonneg h]
  · rename_i h
    rw [pow2Nat_eq]
    push_cast
    rw [one_div, ← zpow_natCast, Int.toNat_of_nonneg (by omega : (0:Int) ≤ -e), ← zpow_neg,
      neg_neg]

lemma pow2_pos (e : Int) : 0 < pow2 e := by
  rw [pow2_eq_zpow]
  positivity

lemma pow2_ne_zero (e : Int) : pow2 e ≠ 0 := ne_of_gt (pow2_pos e)

lemma pow2_add (a b : Int) : pow2 (a + b) = pow2 a * pow2 b := by
  rw [pow2_eq_zpow, pow2_eq_zpow, pow2_eq_zpow]
  exact zpow_add₀ two_ne_zero a b

lemma pow2_lt_pow2 {a b : Int} (h : a < b) : pow2 a < pow2 b := by
  rw [pow2_eq_zpow, pow2_eq_zpow]
  exact zpow_lt_zpow_right₀ one_lt_two h

lemma pow2_le_pow2 {a b : Int} (h : a ≤ b) : pow2 a ≤ pow2 b := by
  rcases lt_or_eq_of_le h with h | h
  · exact le_of_lt (pow2_lt_pow2 h)
  · rw [h]

lemma pow2_le_pow2_iff {a b : Int} : pow2 a ≤ pow2 b ↔ a ≤ b := by
  constructor
  · intro h
    by_contra hc
    exact absurd h (not_le_of_lt (pow2_lt_pow2 (by omega)))
  · exact pow2_le_pow2

lemma pow2_natCast (n : Nat) : pow2 (n : Int) = ((2 ^ n : ℕ) : ℚ) := by
  rw [pow2_eq_zpow]
  push_cast
  exact zpow_natCast 2 n

lemma nlog2Aux_spec : ∀ fuel n, 0 < n → n ≤ fuel →
    2 ^ nlog2Aux fuel n ≤ n ∧ n < 2 ^ (nlog2Aux fuel n + 1) := by
  intro fuel
  induction fuel with
  | zero => intro n h1 h2; omega
  | succ fuel ih =>
    intro n h1 h2
    simp only [nlog2Aux]
    by_cases hle : n ≤ 1
    · have : n = 1 := by omega
      subst this
      simp
    · rw [if_neg hle]
      have hrec := ih (n / 2) (by omega) (by omega)
      obtain ⟨hA, hB⟩ := hrec
      rw [pow_succ] at hB
      constructor
      · rw [pow_succ]
        omega
      · rw [pow_succ, pow_succ]
        omega

lemma nlog2_spec (n : Nat) (h : 0 < n) :
    2 ^ nlog2 n ≤ n ∧ n < 2 ^ (nlog2 n + 1) :=
  nlog2Aux_spec n n h le_rfl

lemma pow2_zero : pow2 (0 : Int) = 1 := by
  rw [pow2_eq_zpow]
  exact zpow_zero 2

lemma pow2_one : pow2 (1 : Int) = 2 := by
  rw [pow2_eq_zpow]
  exact zpow_one 2

lemma pow2_fiftythree : pow2 (53 : Int) = ((2 ^ 53 : ℕ) : ℚ) := pow2_natCast 53

lemma rne_intCast (k : Int) : rne (k : ℚ) = k := by
  unfold rne
  rw [Int.floor_intCast, sub_self]
  norm_num

lemma ratLog2Floor_if_spec (q : ℚ) (z0 : Int) (hlb : pow2 (z0 - 1) < q)
    (hub : q < pow2 (z0 + 1)) :
    pow2 (if q < pow2 z0 then z0 - 1 else if q < pow2 (z0 + 1) then z0 else z0 + 1) ≤ q ∧
      q < pow2 ((if q < pow2 z0 then z0 - 1 else if q < pow2 (z0 + 1) then z0 else z0 + 1) + 1) := by
  by_cases h1 : q < pow2 z0
  · rw [if_pos h1]
    refine ⟨le_of_lt hlb, ?_⟩
    have hz : z0 - 1 + 1 = z0 := by ring
    rw [hz]
    exact h1
  · rw [if_neg h1, if_pos hub]
    exact ⟨not_lt.mp h1, hub⟩

lemma ratLog2Floor_spec (q : ℚ) (hq : 0 < q) :
    pow2 (ratLog2Floor q) ≤ q ∧ q < pow2 (ratLog2Floor q + 1) := by
  have hnum : 0 < q.num := Rat.num_pos.mpr hq
  have hden : 0 < q.den := q.den_pos
  have hdq : (0 : ℚ) < (q.den : ℚ) := by exact_mod_cast hden
  obtain ⟨hA1, hA2⟩ := nlog2_spec q.num.toNat (by omega)
  obtain ⟨hB1, hB2⟩ := nlog2_spec q.den hden
  have hnumq : ((q.num.toNat : ℕ) : ℚ) = (q.num : ℚ) := by
    have h := Int.toNat_of_nonneg (le_of_lt hnum)
    exact_mod_cast congrArg (fun z : ℤ => (z : ℚ)) h
  have hkey : q * (q.den : ℚ) = ((q.num.toNat : ℕ) : ℚ) := by
    have h : ((q.num : ℚ) / (q.den : ℚ)) * (q.den : ℚ) = (q.num : ℚ) :=
      div_mul_cancel₀ _ (ne_of_gt hdq)
    rw [Rat.num_div_den] at h
    rw [h, hnumq]
  set la := nlog2 q.num.toNat with hla
  set lb := nlog2 q.den with hlb
  have hpA1 : pow2 (la : Int) ≤ ((q.num.toNat : ℕ) : ℚ) := by
    rw [pow2_natCast]
    exact_mod_cast hA1
  have hpA2 : ((q.num.toNat : ℕ) : ℚ) < pow2 ((la : Int) + 1) := by
    have hcast : ((la : Int) + 1) = ((la + 1 : ℕ) : Int) := by push_cast; ring
    rw [hcast, pow2_natCast]
    exact_mod_cast hA2
  have hpB1 : pow2 (lb : Int) ≤ (q.den : ℚ) := by
    rw [pow2_natCast]
    exact_mod_cast hB1
  have hpB2 : (q.den : ℚ) < pow2 ((lb : Int) + 1) := by
    have hcast : ((lb : Int) + 1) = ((lb + 1 : ℕ) : Int) := by push_cast; ring
    rw [hcast, pow2_natCast]
    exact_mod_cast hB2
  have hq_lb : pow2 ((la : Int) - (lb : Int) - 1) < q := by
    rw [← mul_lt_mul_right hdq]
    calc pow2 ((la : Int) - (lb : Int) - 1) * (q.den : ℚ)
        < pow2 ((la : Int) - (lb : Int) - 1) * pow2 ((lb : Int) + 1) :=
          mul_lt_mul_of_pos_left hpB2 (pow2_pos _)
      _ = pow2 (la : Int) := by rw [← pow2_add]; congr 1; ring
      _ ≤ ((q.num.toNat : ℕ) : ℚ) := hpA1
      _ = q * (q.den : ℚ) := hkey.symm
  have hq_ub : q < pow2 ((la : Int) - (lb : Int) + 1) := by
    rw [← mul_lt_mul_right hdq]
    calc q * (q.den : ℚ) = ((q.num.toNat : ℕ) : ℚ) := hkey
      _ < pow2 ((la : Int) + 1) := hpA2
      _ = pow2 ((la : Int) - (lb : Int) + 1) * pow2 (lb : Int) := by
          rw [← pow2_add]; congr 1; ring
      _ ≤ pow2 ((la : Int) - (lb : Int) + 1) * (q.den : ℚ) :=
          mul_le_mul_of_nonneg_left hpB1 (le_of_lt (pow2_pos _))
  have h := ratLog2Floor_if_spec q ((la : Int) - (lb : Int)) hq_lb hq_ub
  simpa only [ratLog2Floor] using h

lemma roundPos_exact (N : Nat) (e : Int) (hN0 : 0 < N) (hN : N ≤ 2 ^ 53)
    (he : -1074 ≤ e) :
    roundPos ((N : ℚ) * pow2 e) = (N : ℚ) * pow2 e := by
  have hNq : (0 : ℚ) < (N : ℚ) := by exact_mod_cast hN0
  have hqpos : 0 < (N : ℚ) * pow2 e := mul_pos hNq (pow2_pos e)
  obtain ⟨hL1, hL2⟩ := ratLog2Floor_spec ((N : ℚ) * pow2 e) hqpos
  unfold roundPos
  set L := ratLog2Floor ((N : ℚ) * pow2 e) with hLdef
  set ep := max (L - 52) (-1074 : Int) with hepdef
  have hexists : ∃ k : Int, (k : ℚ) = ((N : ℚ) * pow2 e) / pow2 ep := by
    by_cases hcase : ep ≤ e
    · refine ⟨(N : Int) * 2 ^ (e - ep).toNat, ?_⟩
      have h1 : pow2 (e - ep) = ((2 ^ (e - ep).toNat : ℕ) : ℚ) := by
        rw [← pow2_natCast]
        congr 1
        omega
      have h2 : ((N : ℚ) * pow2 e) / pow2 ep = (N : ℚ) * pow2 (e - ep) := by
        rw [mul_div_assoc]
        congr 1
        rw [div_eq_iff (pow2_ne_zero ep), ← pow2_add]
        congr 1
        ring
      rw [h2, h1]
      push_cast
      ring
    · have hepeq : ep = L - 52 := by
        rcases max_cases (L - 52) (-1074 : Int) with ⟨h1, _⟩ | ⟨h1, _⟩
        · rw [hepdef, h1]
        · rw [hepdef, h1] at hcase ⊢
          omega
      have h53 : pow2 (53 : Int) = ((2 ^ 53 : ℕ) : ℚ) := pow2_fiftythree
      have hq_ub' : (N : ℚ) * pow2 e ≤ pow2 (e + 53) := by
        have hN53 : (N : ℚ) ≤ ((2 ^ 53 : ℕ) : ℚ) := by exact_mod_cast hN
        calc (N : ℚ) * pow2 e ≤ ((2 ^ 53 : ℕ) : ℚ) * pow2 e :=
              mul_le_mul_of_nonneg_right hN53 (le_of_lt (pow2_pos e))
          _ = pow2 e * pow2 53 := by rw [← h53]; ring
          _ = pow2 (e + 53) := by rw [← pow2_add]
      have hLle : L ≤ e + 53 := by
        rw [← pow2_le_pow2_iff]
        exact le_trans hL1 hq_ub'
      have hLeq : L = e + 53 := by omega
      have hNge : ((2 ^ 53 : ℕ) : ℚ) ≤ (N : ℚ) := by
        have h1 : pow2 53 * pow2 e ≤ (N : ℚ) * pow2 e := by
          calc pow2 53 * pow2 e = pow2 (e + 53) := by rw [← pow2_add]; congr 1; ring
            _ = pow2 L := by rw [hLeq]
            _ ≤ (N : ℚ) * pow2 e := hL1
        have h2 := (mul_le_mul_right (pow2_pos e)).mp h1
        rw [h53] at h2
        exact h2
      have hNeq : (N : ℚ) = ((2 ^ 53 : ℕ) : ℚ) := by
        have hle : (N : ℚ) ≤ ((2 ^ 53 : ℕ) : ℚ) := by exact_mod_cast hN
        exact le_antisymm hle hNge
      refine ⟨2 ^ 52, ?_⟩
      have hep1 : ep = e + 1 := by omega
      rw [hNeq, hep1, eq_div_iff (pow2_ne_zero (e + 1)), pow2_add, pow2_one]
      push_cast
      ring
  obtain ⟨k, hk⟩ := hexists
  rw [← hk, rne_intCast, hk, div_mul_cancel₀ _ (pow2_ne_zero ep)]

lemma roundF64_exact (N : Nat) (e : Int) (hN : N ≤ 2 ^ 53) (he : -1074 ≤ e)
    (hlt : (N : ℚ) * pow2 e < pow2 1024) :
    roundF64 ((N : ℚ) * pow2 e) = .finite ((N : ℚ) * pow2 e) := by
  by_cases hN0 : N = 0
  · subst hN0
    simp [roundF64]
  · have hN0' : 0 < N := Nat.pos_of_ne_zero hN0
    have hpos : 0 < (N : ℚ) * pow2 e := mul_pos (by exact_mod_cast hN0') (pow2_pos e)
    unfold roundF64
    rw [if_neg (ne_of_gt hpos), abs_of_pos hpos, roundPos_exact N e hN0' hN he,
      if_neg (not_le.mpr hlt), if_neg (not_lt.mpr (le_of_lt hpos))]

lemma pow2_1024_big : ((2 ^ 53 : ℕ) : ℚ) < pow2 1024 := by
  rw [← pow2_fiftythree]
  exact pow2_lt_pow2 (by norm_num)

lemma roundF64_natCast (N : Nat) (hN : N ≤ 2 ^ 53) :
    roundF64 (N : ℚ) = .finite (N : ℚ) := by
  have hlt : (N : ℚ) * pow2 0 < pow2 1024 := by
    rw [pow2_zero, mul_one]
    calc (N : ℚ) ≤ ((2 ^ 53 : ℕ) : ℚ) := by exact_mod_cast hN
      _ < pow2 1024 := pow2_1024_big
  have h := roundF64_exact N 0 hN (by norm_num) hlt
  rw [pow2_zero, mul_one] at h
  exact h

lemma pow2_neg_three : pow2 (-3 : Int) = 1 / 8 := by decide

lemma roundF64_div8 (N : Nat) (hN : N ≤ 2 ^ 53) :
    roundF64 ((N : ℚ) / 8) = .finite ((N : ℚ) / 8) := by
  have hdiv : (N : ℚ) / 8 = (N : ℚ) * pow2 (-3) := by rw [pow2_neg_three]; ring
  rw [hdiv]
  apply roundF64_exact N (-3) hN (by norm_num)
  calc (N : ℚ) * pow2 (-3) ≤ (N : ℚ) * 1 := by
        apply mul_le_mul_of_nonneg_left _ (by positivity)
        rw [pow2_neg_three]
        norm_num
    _ = (N : ℚ) := mul_one _
    _ ≤ ((2 ^ 53 : ℕ) : ℚ) := by exact_mod_cast hN
    _ < pow2 1024 := pow2_1024_big

lemma fmul_finite (x y : ℚ) : fmul (.finite x) (.finite y) = roundF64 (x * y) := rfl

lemma fdiv8_finite (q : ℚ) : fdiv8 (.finite q) = roundF64 (q / 8) := rfl

lemma f64AsUsize_le (x : F64) : f64AsUsize x ≤ USIZE_MAX := by
  cases x with
  | nan => exact Nat.zero_le _
  | inf s =>
    simp only [f64AsUsize]
    split
    · exact Nat.zero_le _
    · exact le_refl _
  | finite q =>
    simp only [f64AsUsize]
    split
    · exact Nat.zero_le _
    · exact min_le_right _ _

lemma f64AsUsize_natCast (N : Nat) (hle : N ≤ USIZE_MAX) :
    f64AsUsize (.finite (N : ℚ)) = N := by
  simp only [f64AsUsize]
  by_cases h0 : N = 0
  · subst h0
    simp
  · rw [if_neg]
    · rw [Int.floor_natCast]
      simp [min_eq_left hle]
    · have hpos : (0 : ℚ) < (N : ℚ) := by exact_mod_cast Nat.pos_of_ne_zero h0
      exact not_le.mpr hpos

lemma f64AsUsize_div8 (N : Nat) (h8 : 0 < N) (hle : N ≤ USIZE_MAX) :
    f64AsUsize (.finite ((N : ℚ) / 8)) = N / 8 := by
  simp only [f64AsUsize]
  have hNpos : (0 : ℚ) < (N : ℚ) := by exact_mod_cast h8
  have hpos : (0 : ℚ) < (N : ℚ) / 8 := by positivity
  rw [if_neg (not_le.mpr hpos)]
  have h1 : (N / 8) * 8 ≤ N := Nat.div_mul_le_self N 8
  have h2 : N < (N / 8 + 1) * 8 := by omega
  have hfloor : ⌊(N : ℚ) / 8⌋ = ((N / 8 : ℕ) : Int) := by
    rw [Int.floor_eq_iff]
    constructor
    · rw [le_div_iff₀ (by norm_num : (0 : ℚ) < 8)]
      exact_mod_cast h1
    · rw [div_lt_iff₀ (by norm_num : (0 : ℚ) < 8)]
      push_cast
      exact_mod_cast h2
  rw [hfloor, Int.toNat_natCast]
  exact min_eq_left (le_trans (Nat.div_le_self N 8) hle)

lemma finishCast_nat (N : Nat) (h0 : 0 < N) (hle : N ≤ USIZE_MAX) :
    finishCast (.finite (N : ℚ)) = .ok N := by
  unfold finishCast
  rw [f64AsUsize_natCast N hle, if_neg (by omega)]

lemma finishCast_ok {x : F64} {v : Nat} (h : finishCast x = .ok v) :
    0 < v ∧ v ≤ USIZE_MAX := by
  unfold finishCast at h
  split at h
  · simp at h
  · rename_i hne
    rw [Except.ok.injEq] at h
    subst h
    exact ⟨Nat.pos_of_ne_zero hne, f64AsUsize_le x⟩

/-! ## Digit strings and scanning lemmas -/

lemma isAsciiDigit_digitChar {m : Nat} (h : m < 10) : isAsciiDigit (digitChar m) = true := by
  interval_cases m <;> decide

lemma digitVal_digitChar {m : Nat} (h : m < 10) : digitVal (digitChar m) = m := by
  interval_cases m <;> decide

lemma digit_ne_plus {c : Char} (h : isAsciiDigit c = true) : ¬(c = '+') := by
  intro hc
  rw [hc] at h
  exact absurd h (by decide)

lemma digit_not_suffixStart {c : Char} (h : isAsciiDigit c = true) :
    sizeSuffixStart c = false := by
  unfold sizeSuffixStart
  rw [h]
  rfl

lemma not_suffixStart_utf8Len {c : Char} (h : sizeSuffixStart c = false) :
    utf8Len c = 1 := by
  cases hd : isAsciiDigit c with
  | true =>
    unfold isAsciiDigit at hd
    rw [Bool.and_eq_true] at hd
    obtain ⟨h1, h2⟩ := hd
    rw [decide_eq_true_eq] at h1 h2
    unfold utf8Len
    rw [if_pos (by omega)]
  | false =>
    unfold sizeSuffixStart at h
    rw [hd] at h
    simp only [Bool.not_false, Bool.true_and] at h
    have hbeq : (c == '.') = true := by
      cases hcb : (c == '.') with
      | true => rfl
      | false => rw [hcb] at h; simp at h
    have hc : c = '.' := by simpa [beq_iff_eq] using hbeq
    subst hc
    decide

lemma natDigitsAux_append : ∀ fuel n acc, n < fuel →
    natDigitsAux fuel n acc = natDigitsAux fuel n [] ++ acc := by
  intro fuel
  induction fuel with
  | zero => intro n acc h; omega
  | succ fuel ih =>
    intro n acc h
    simp only [natDigitsAux]
    by_cases h10 : n < 10
    · simp [h10]
    · rw [if_neg h10, if_neg h10]
      have hlt : n / 10 < fuel := by omega
      rw [ih _ _ hlt, ih _ [digitChar (n % 10)] hlt]
      simp

lemma natDigitsAux_fuel : ∀ f1 f2 n, n < f1 → n < f2 →
    natDigitsAux f1 n [] = natDigitsAux f2 n [] := by
  intro f1
  induction f1 with
  | zero => intro f2 n h; omega
  | succ f1 ih =>
    intro f2 n h1 h2
    cases f2 with
    | zero => omega
    | succ f2 =>
      simp only [natDigitsAux]
      by_cases h10 : n < 10
      · simp [h10]
      · rw [if_neg h10, if_neg h10]
        have e1 : n / 10 < f1 := by omega
        have e2 : n / 10 < f2 := by omega
        rw [natDigitsAux_append f1 _ _ e1, natDigitsAux_append f2 _ _ e2, ih f2 _ e1 e2]

lemma natDigits_unfold (n : Nat) :
    natDigits n = if n < 10 then [digitChar (n % 10)]
      else natDigits (n / 10) ++ [digitChar (n % 10)] := by
  by_cases h10 : n < 10
  · rw [if_pos h10]
    unfold natDigits
    simp only [natDigitsAux]
    rw [if_pos h10]
  · rw [if_neg h10]
    show natDigitsAux (n + 1) n [] = natDigitsAux (n / 10 + 1) (n / 10) [] ++ [digitChar (n % 10)]
    have hstep : natDigitsAux (n + 1) n [] = natDigitsAux n (n / 10) [digitChar (n % 10)] := by
      conv_lhs => rw [natDigitsAux]
      rw [if_neg h10]
    rw [hstep, natDigitsAux_append n _ _ (by omega),
      natDigitsAux_fuel n (n / 10 + 1) _ (by omega) (by omega)]

lemma natDigits_ne_nil (n : Nat) : natDigits n ≠ [] := by
  rw [natDigits_unfold]
  split
  · simp
  · simp

lemma natDigits_all_digit (n : Nat) : ∀ c ∈ natDigits n, isAsciiDigit c = true := by
  induction n using Nat.strong_induction_on with
  | _ n ih =>
    rw [natDigits_unfold]
    split
    · intro c hc
      simp only [List.mem_singleton] at hc
      subst hc
      exact isAsciiDigit_digitChar (Nat.mod_lt _ (by norm_num))
    · rename_i h10
      intro c hc
      rw [List.mem_append] at hc
      rcases hc with hc | hc
      · exact ih (n / 10) (by omega) c hc
      · simp only [List.mem_singleton] at hc
        subst hc
        exact isAsciiDigit_digitChar (Nat.mod_lt _ (by norm_num))

lemma decodeDigits_append_singleton (l : List Char) (c : Char) :
    decodeDigits (l ++ [c]) = decodeDigits l * 10 + digitVal c := by
  unfold decodeDigits
  rw [List.foldl_append]
  simp

lemma decodeDigits_natDigits (n : Nat) : decodeDigits (natDigits n) = n := by
  induction n using Nat.strong_induction_on with
  | _ n ih =>
    rw [natDigits_unfold]
    split
    · rename_i h10
      have h : decodeDigits [digitChar (n % 10)] = digitVal (digitChar (n % 10)) := by
        simp [decodeDigits]
      rw [h, digitVal_digitChar (Nat.mod_lt _ (by norm_num))]
      omega
    · rename_i h10
      rw [decodeDigits_append_singleton, ih (n / 10) (by omega),
        digitVal_digitChar (Nat.mod_lt _ (by norm_num))]
      omega

lemma natDigits_cons (n : Nat) : ∃ c cs, natDigits n = c :: cs ∧ isAsciiDigit c = true := by
  cases h : natDigits n with
  | nil => exact absurd h (natDigits_ne_nil n)
  | cons c cs =>
    exact ⟨c, cs, rfl, natDigits_all_digit n c (h ▸ List.mem_cons_self c cs)⟩

lemma stripPlus_natDigits (n : Nat) : stripPlus (natDigits n) = natDigits n := by
  obtain ⟨c, cs, hcons, hdig⟩ := natDigits_cons n
  rw [hcons]
  simp only [stripPlus]
  rw [if_neg (digit_ne_plus hdig)]

lemma parseUsize_natDigits (n : Nat) (hle : n ≤ USIZE_MAX) :
    parseUsize (natDigits n) = some n := by
  unfold parseUsize
  rw [stripPlus_natDigits, if_neg (natDigits_ne_nil n),
    if_pos (List.all_eq_true.mpr (natDigits_all_digit n)), decodeDigits_natDigits,
    if_pos hle]

lemma stripPlus_cons_plus (l : List Char) : stripPlus ('+' :: l) = l := by
  simp [stripPlus]

lemma parseUsize_plus_natDigits (n : Nat) (hle : n ≤ USIZE_MAX) :
    parseUsize ('+' :: natDigits n) = some n := by
  unfold parseUsize
  rw [stripPlus_cons_plus, if_neg (natDigits_ne_nil n),
    if_pos (List.all_eq_true.mpr (natDigits_all_digit n)), decodeDigits_natDigits,
    if_pos hle]

lemma parseUsize_append_nondigit (l : List Char) (c : Char) (r : List Char)
    (hl : ∀ x ∈ l, isAsciiDigit x = true) (hlne : l ≠ []) (hc : isAsciiDigit c = false) :
    parseUsize (l ++ c :: r) = none := by
  obtain ⟨d, ds, hcons⟩ : ∃ d ds, l = d :: ds := by
    cases l with
    | nil => exact absurd rfl hlne
    | cons d ds => exact ⟨d, ds, rfl⟩
  have hstrip : stripPlus (l ++ c :: r) = l ++ c :: r := by
    rw [hcons]
    simp only [List.cons_append, stripPlus]
    rw [if_neg (digit_ne_plus (hl d (hcons ▸ List.mem_cons_self d ds)))]
  have hallfail : ¬((l ++ c :: r).all isAsciiDigit = true) := by
    rw [List.all_eq_true]
    intro hall
    have h := hall c (by simp)
    rw [hc] at h
    simp at h
  unfold parseUsize
  rw [hstrip, if_neg (by simp), if_neg hallfail]

lemma position_eq_none {p : Char → Bool} {s : List Char}
    (h : ∀ c ∈ s, p c = false) : position p s = none := by
  induction s with
  | nil => rfl
  | cons c cs ih =>
    have hc : p c = false := h c (List.mem_cons_self c cs)
    simp only [position]
    rw [if_neg (by simp [hc]), ih (fun x hx => h x (List.mem_cons_of_mem c hx))]
    rfl

lemma position_append {p : Char → Bool} {l : List Char} {c : Char} {r : List Char}
    (hl : ∀ x ∈ l, p x = false) (hc : p c = true) :
    position p (l ++ c :: r) = some l.length := by
  induction l with
  | nil => simp [position, hc]
  | cons d ds ih =>
    have hd : p d = false := hl d (List.mem_cons_self d ds)
    simp only [List.cons_append, position, List.append_eq]
    rw [if_neg (by simp [hd]), ih (fun x hx => hl x (List.mem_cons_of_mem d hx))]
    simp

lemma position_some_spec {p : Char → Bool} : ∀ {s : List Char} {i : Nat},
    position p s = some i → i < s.length ∧ ∀ c ∈ s.take i, p c = false := by
  intro s
  induction s with
  | nil => intro i h; simp [position] at h
  | cons c cs ih =>
    intro i h
    simp only [position] at h
    by_cases hc : p c = true
    · rw [if_pos hc] at h
      have h0 : i = 0 := by
        rw [Option.some.injEq] at h
        omega
      subst h0
      exact ⟨by simp, by simp⟩
    · rw [if_neg hc] at h
      rw [Bool.not_eq_true] at hc
      cases hpos : position p cs with
      | none => rw [hpos] at h; simp at h
      | some j =>
        rw [hpos] at h
        simp at h
        obtain ⟨h1, h2⟩ := ih hpos
        constructor
        · simp
          omega
        · intro x hx
          have hi : i = j + 1 := by omega
          subst hi
          rw [List.take_succ_cons] at hx
          rcases List.mem_cons.mp hx with hx | hx
          · rw [hx]
            exact hc
          · exact h2 x hx

lemma splitAtByteIdx_of_ascii : ∀ (s : List Char) (i : Nat), i ≤ s.length →
    (∀ c ∈ s.take i, utf8Len c = 1) →
    splitAtByteIdx s i = some (s.take i, s.drop i) := by
  intro s
  induction s with
  | nil =>
    intro i hi _
    have h0 : i = 0 := by simpa using hi
    subst h0
    rfl
  | cons c cs ih =>
    intro i hi hall
    cases i with
    | zero => rfl
    | succ j =>
      have hc : utf8Len c = 1 := hall c (by simp [List.take_succ_cons])
      simp only [splitAtByteIdx]
      rw [hc, if_pos (by omega)]
      simp only [Nat.add_sub_cancel]
      have hrec := ih j (by simpa using hi)
        (fun x hx => hall x (by simp [List.take_succ_cons, hx]))
      rw [hrec]
      simp [List.take_succ_cons, List.drop_succ_cons]

/-! ## Mantissa parsing lemmas -/

lemma takeWhile_all {p : Char → Bool} : ∀ {l : List Char}, (∀ c ∈ l, p c = true) →
    l.takeWhile p = l ∧ l.dropWhile p = [] := by
  intro l
  induction l with
  | nil => intro _; exact ⟨rfl, rfl⟩
  | cons c cs ih =>
    intro h
    have hc : p c = true := h c (List.mem_cons_self c cs)
    obtain ⟨h1, h2⟩ := ih (fun x hx => h x (List.mem_cons_of_mem c hx))
    constructor
    · rw [List.takeWhile_cons, if_pos hc, h1]
    · rw [List.dropWhile_cons, if_pos hc, h2]

lemma decimalValue_digits (l : List Char) (h : ∀ c ∈ l, isAsciiDigit c = true) :
    decimalValue l = (decodeDigits l : ℚ) := by
  obtain ⟨ht, hd⟩ := takeWhile_all h
  simp only [decimalValue]
  rw [ht, hd]
  simp [decodeDigits]

lemma parseF64_digits (l : List Char) (hne : l ≠ []) (h : ∀ c ∈ l, isAsciiDigit c = true) :
    parseF64 l = some (roundF64 (decodeDigits l : ℚ)) := by
  have hall : l.all (fun c => isAsciiDigit c || c == '.') = true :=
    List.all_eq_true.mpr (fun c hc => by rw [h c hc]; rfl)
  have hany : l.any isAsciiDigit = true := by
    cases l with
    | nil => exact absurd rfl hne
    | cons c cs => simp [List.any_cons, h c (List.mem_cons_self c cs)]
  have hcount : l.count '.' = 0 := by
    rw [List.count_eq_zero]
    intro hmem
    exact absurd (h _ hmem) (by decide)
  unfold parseF64
  rw [if_pos (by simp [hall, hany, hcount]), decimalValue_digits l h]

lemma popLast_nil : popLast [] = none := rfl

lemma popLast_one (a : Char) : popLast [a] = some ([], a) := rfl

lemma popLast_two (a b : Char) : popLast [a, b] = some ([a], b) := rfl

/-! ## Structural lemmas about `parse_size_string` -/

lemma parse_size_suffix_form (number : List Char) (c : Char) (r : List Char)
    (hnum : ∀ x ∈ number, isAsciiDigit x = true) (hnumne : number ≠ [])
    (hc : sizeSuffixStart c = true) (hcd : isAsciiDigit c = false) :
    parse_size_string (number ++ c :: r) = some (afterSplit number (c :: r)) := by
  have hsplit : splitAtByteIdx (number ++ c :: r) number.length = some (number, c :: r) := by
    have h1 : number.length ≤ (number ++ c :: r).length := by simp
    have h2 : ∀ x ∈ (number ++ c :: r).take number.length, utf8Len x = 1 := by
      intro x hx
      rw [List.take_left] at hx
      exact not_suffixStart_utf8Len (digit_not_suffixStart (hnum x hx))
    have h := splitAtByteIdx_of_ascii (number ++ c :: r) number.length h1 h2
    rw [List.take_left, List.drop_left] at h
    exact h
  simp only [parse_size_string, parseUsize_append_nondigit number c r hnum hnumne hcd,
    position_append (fun x hx => digit_not_suffixStart (hnum x hx)) hc, hsplit]

lemma parse_size_all_digit_dot (s : List Char)
    (hall : ∀ c ∈ s, isAsciiDigit c = true ∨ c = '.')
    (hpu : parseUsize s = none) :
    parse_size_string s = some (.error suffixRequiredMsg) := by
  have hnone : position sizeSuffixStart s = none := position_eq_none (fun c hc => by
    rcases hall c hc with h | h
    · exact digit_not_suffixStart h
    · rw [h]; rfl)
  simp only [parse_size_string, hpu, hnone]

/-! ## Evaluation of the suffix path on exactly representable inputs -/

lemma parseF64_natDigits (n : Nat) (h53 : n ≤ 2 ^ 53) :
    parseF64 (natDigits n) = some (.finite (n : ℚ)) := by
  rw [parseF64_digits (natDigits n) (natDigits_ne_nil n) (natDigits_all_digit n),
    decodeDigits_natDigits, roundF64_natCast n h53]

lemma usize_max_ge : (2 : Nat) ^ 53 ≤ USIZE_MAX := by decide

lemma afterSplit_B (v : Nat) (hv : 0 < v) (hle : v ≤ 2 ^ 53) :
    afterSplit (natDigits v) ['B'] = .ok v := by
  simp only [afterSplit, parseF64_natDigits v hle, popLast_one]
  rw [if_neg (by simp), if_pos (by decide)]
  simp only [popLast_nil]
  rw [if_neg (by decide)]
  exact finishCast_nat v hv (le_trans hle usize_max_ge)

lemma afterSplit_prefix_B (n M : Nat) (p : Char)
    (hp : parse_si_prefix p = .ok (.finite (M : ℚ)))
    (hn : 0 < n) (hM : 0 < M) (hle : n * M ≤ 2 ^ 53) :
    afterSplit (natDigits n) [p, 'B'] = .ok (n * M) := by
  have hn53 : n ≤ 2 ^ 53 := le_trans (Nat.le_mul_of_pos_right n hM) hle
  simp only [afterSplit, parseF64_natDigits n hn53, popLast_two, popLast_one]
  rw [if_neg (by simp), if_pos (by simp)]
  simp only [hp]
  rw [if_neg (by decide), fmul_finite]
  have hcast : (n : ℚ) * (M : ℚ) = ((n * M : ℕ) : ℚ) := by push_cast; ring
  rw [hcast, roundF64_natCast (n * M) hle]
  exact finishCast_nat (n * M) (Nat.mul_pos hn hM) (le_trans hle usize_max_ge)

lemma finishCast_div8 (K : Nat) (h8 : 8 ≤ K) (hle : K ≤ USIZE_MAX) :
    finishCast (.finite ((K : ℚ) / 8)) = .ok (K / 8) := by
  unfold finishCast
  rw [f64AsUsize_div8 K (by omega) hle, if_neg (by omega)]

lemma afterSplit_prefix_b (n M : Nat) (p : Char)
    (hp : parse_si_prefix p = .ok (.finite (M : ℚ)))
    (hn : 0 < n) (h8 : 8 ≤ M) (hle : n * M ≤ 2 ^ 53) :
    afterSplit (natDigits n) [p, 'b'] = .ok (n * M / 8) := by
  have hM : 0 < M := by omega
  have hn53 : n ≤ 2 ^ 53 := le_trans (Nat.le_mul_of_pos_right n hM) hle
  simp only [afterSplit, parseF64_natDigits n hn53, popLast_two, popLast_one]
  rw [if_neg (by simp), if_pos (by simp)]
  simp only [hp]
  rw [if_pos (by decide), fmul_finite]
  have hcast : (n : ℚ) * (M : ℚ) = ((n * M : ℕ) : ℚ) := by push_cast; ring
  rw [hcast, roundF64_natCast (n * M) hle, fdiv8_finite, roundF64_div8 (n * M) hle]
  exact finishCast_div8 (n * M) (le_trans h8 (Nat.le_mul_of_pos_left M hn))
    (le_trans hle usize_max_ge)

/-! ## Whole-parser assembled lemmas -/

lemma parse_size_natDigits (n : Nat) (h0 : 0 < n) (hle : n ≤ USIZE_MAX) :
    parse_size_string (natDigits n) = some (.ok n) := by
  simp only [parse_size_string, parseUsize_natDigits n hle]
  rw [if_neg (by omega)]

lemma parse_size_plus_natDigits (n : Nat) (h0 : 0 < n) (hle : n ≤ USIZE_MAX) :
    parse_size_string ('+' :: natDigits n) = some (.ok n) := by
  simp only [parse_size_string, parseUsize_plus_natDigits n hle]
  rw [if_neg (by omega)]

lemma parse_size_digits_B (v : Nat) (hv : 0 < v) (hle : v ≤ 2 ^ 53) :
    parse_size_string (natDigits v ++ ['B']) = some (.ok v) := by
  rw [parse_size_suffix_form (natDigits v) 'B' [] (natDigits_all_digit v)
    (natDigits_ne_nil v) (by decide) (by decide), afterSplit_B v hv hle]

lemma parse_size_digits_prefix_B (n M : Nat) (p : Char)
    (hp : parse_si_prefix p = .ok (.finite (M : ℚ)))
    (hps : sizeSuffixStart p = true) (hpd : isAsciiDigit p = false)
    (hn : 0 < n) (hM : 0 < M) (hle : n * M ≤ 2 ^ 53) :
    parse_size_string (natDigits n ++ [p, 'B']) = some (.ok (n * M)) := by
  rw [parse_size_suffix_form (natDigits n) p ['B'] (natDigits_all_digit n)
    (natDigits_ne_nil n) hps hpd, afterSplit_prefix_B n M p hp hn hM hle]

lemma parse_size_digits_prefix_b (n M : Nat) (p : Char)
    (hp : parse_si_prefix p = .ok (.finite (M : ℚ)))
    (hps : sizeSuffixStart p = true) (hpd : isAsciiDigit p = false)
    (hn : 0 < n) (h8 : 8 ≤ M) (hle : n * M ≤ 2 ^ 53) :
    parse_size_string (natDigits n ++ [p, 'b']) = some (.ok (n * M / 8)) := by
  rw [parse_size_suffix_form (natDigits n) p ['b'] (natDigits_all_digit n)
    (natDigits_ne_nil n) hps hpd, afterSplit_prefix_b n M p hp hn h8 hle]

lemma parse_si_k : parse_si_prefix 'k' = .ok (.finite ((10 ^ 3 : ℕ) : ℚ)) := by decide

lemma parse_si_M : parse_si_prefix 'M' = .ok (.finite ((10 ^ 6 : ℕ) : ℚ)) := by decide

lemma parse_si_G : parse_si_prefix 'G' = .ok (.finite ((10 ^ 9 : ℕ) : ℚ)) := by decide

lemma parse_si_T : parse_si_prefix 'T' = .ok (.finite ((10 ^ 12 : ℕ) : ℚ)) := by decide

lemma parse_si_P : parse_si_prefix 'P' = .ok (.finite ((10 ^ 15 : ℕ) : ℚ)) := by decide

/-! ## Inversion lemmas: every successful parse is positive and bounded -/

lemma parseUsize_le {s : List Char} {t : Nat} (h : parseUsize s = some t) :
    t ≤ USIZE_MAX := by
  unfold parseUsize at h
  split at h
  · simp at h
  · split at h
    · split at h
      · rename_i hbound
        rw [Option.some.injEq] at h
        subst h
        exact hbound
      · simp at h
    · simp at h

lemma afterSplit_ok_bounds {a b : List Char} {v : Nat}
    (h : afterSplit a b = .ok v) : 0 < v ∧ v ≤ USIZE_MAX := by
  unfold afterSplit at h
  split at h
  · simp at h
  · split at h
    · simp at h
    · split at h
      · split at h
        · split at h
          · split at h
            · simp at h
            · exact finishCast_ok h
          · exact finishCast_ok h
        · simp at h
      · exact finishCast_ok h

lemma parse_size_ok_bounds {s : List Char} {v : Nat}
    (h : parse_size_string s = some (.ok v)) : 0 < v ∧ v ≤ USIZE_MAX := by
  revert h
  cases hpu : parseUsize s with
  | some t =>
    intro h
    simp only [parse_size_string, hpu] at h
    rw [Option.some.injEq] at h
    by_cases ht : t = 0
    · rw [if_pos ht] at h
      exact absurd h (by simp)
    · rw [if_neg ht] at h
      rw [Except.ok.injEq] at h
      subst h
      exact ⟨Nat.pos_of_ne_zero ht, parseUsize_le hpu⟩
  | none =>
    cases hpos : position sizeSuffixStart s with
    | none =>
      intro h
      simp only [parse_size_string, hpu, hpos] at h
      rw [Option.some.injEq] at h
      exact absurd h (by simp)
    | some i =>
      cases hsplit : splitAtByteIdx s i with
      | none =>
        intro h
        simp only [parse_size_string, hpu, hpos, hsplit] at h
        exact absurd h (by simp)
      | some pr =>
        intro h
        simp only [parse_size_string, hpu, hpos, hsplit] at h
        rw [Option.some.injEq] at h
        exact afterSplit_ok_bounds h

/-! ## Panic freedom and suffix non-emptiness -/

lemma parse_size_total (s : List Char) : (parse_size_string s).isSome = true := by
  cases hpu : parseUsize s with
  | some t => simp [parse_size_string, hpu]
  | none =>
    cases hpos : position sizeSuffixStart s with
    | none => simp [parse_size_string, hpu, hpos]
    | some i =>
      obtain ⟨hlen, hall⟩ := position_some_spec hpos
      have hsplit := splitAtByteIdx_of_ascii s i (le_of_lt hlen)
        (fun c hc => not_suffixStart_utf8Len (hall c hc))
      simp [parse_size_string, hpu, hpos, hsplit]

lemma popLast_of_ne_nil : ∀ {l : List Char}, l ≠ [] → ∃ r e, popLast l = some (r, e) := by
  intro l
  induction l with
  | nil => intro h; exact absurd rfl h
  | cons c cs ih =>
    intro _
    cases cs with
    | nil => exact ⟨[], c, rfl⟩
    | cons d ds =>
      obtain ⟨r, e, hre⟩ := ih (by simp)
      refine ⟨c :: r, e, ?_⟩
      show (popLast (d :: ds)).map (fun pr => (c :: pr.1, pr.2)) = some (c :: r, e)
      rw [hre]
      rfl

lemma drop_ne_nil_of_position {s : List Char} {i : Nat}
    (h : position sizeSuffixStart s = some i) : s.drop i ≠ [] := by
  obtain ⟨hlen, _⟩ := position_some_spec h
  intro hnil
  rw [List.drop_eq_nil_iff] at hnil
  omega

lemma parse_size_invalid_mantissa {s : List Char} {i : Nat}
    (hpu : parseUsize s = none) (hpos : position sizeSuffixStart s = some i)
    (hpf : parseF64 (s.take i) = none) :
    parse_size_string s = some (.error (invalidMantissaMsg (s.take i))) := by
  obtain ⟨hlen, hall⟩ := position_some_spec hpos
  have hsplit := splitAtByteIdx_of_ascii s i (le_of_lt hlen)
    (fun c hc => not_suffixStart_utf8Len (hall c hc))
  simp only [parse_size_string, hpu, hpos, hsplit, afterSplit, hpf]

/-! ## The claims -/

/-- Claim C1: for every positive integer `n` representable as a machine-word
byte count, `parse_size_string` applied to the decimal string of `n` succeeds
and returns exactly `n` (the unit-less fast path), and `parse_size_string "0"`
fails with the `ZeroValue` error message. -/
theorem claim_C1_fast_path :
    (∀ n : Nat, 0 < n → n ≤ USIZE_MAX →
      parse_size_string (natDigits n) = some (.ok n)) ∧
      parse_size_string ['0'] = some (.error zeroValueMsg) :=
  ⟨fun n h0 hle => parse_size_natDigits n h0 hle, by decide⟩

/-- Witness for C1 at the concrete input 200. -/
theorem claim_C1_fast_path_witness :
    parse_size_string (natDigits 200) = some (.ok 200) :=
  claim_C1_fast_path.1 200 (by decide) (by decide)

/-- Claim C2, counterexample: the claim quantifies over every positive
integer `n`, but `f64` rounding makes `parse_size_string "9007199254740993kB"`
return `9007199254740992000`, not `9007199254740993 * 1000`
(`9007199254740993 = 2 ^ 53 + 1` is not representable in binary64). -/
theorem claim_C2_counterexample :
    parse_size_string ("9007199254740993kB".toList) = some (.ok 9007199254740992000) ∧
      (9007199254740992000 : Nat) ≠ 9007199254740993 * 10 ^ 3 :=
  ⟨by decide, by decide⟩

/-- Claim C2 as amended: for every positive integer `n` and SI prefix letter
`p` in `{k, M, G, T, P}`, as long as the exact product `n * multiplier(p)`
does not exceed `2 ^ 53` (the range on which binary64 arithmetic is exact),
`parse_size_string (f"{n}{p}B")` succeeds and equals `n * multiplier(p)`. -/
theorem claim_C2_amended :
    ∀ (n : Nat) (p : Char), p ∈ (['k', 'M', 'G', 'T', 'P'] : List Char) → 0 < n →
      n * siMultiplier p ≤ 2 ^ 53 →
      parse_size_string (natDigits n ++ [p, 'B']) = some (.ok (n * siMultiplier p)) := by
  intro n p hp hn hle
  simp only [List.mem_cons, List.mem_singleton, List.not_mem_nil, or_false] at hp
  rcases hp with rfl | rfl | rfl | rfl | rfl
  · rw [show siMultiplier 'k' = 10 ^ 3 from by decide] at hle ⊢
    exact parse_size_digits_prefix_B n (10 ^ 3) 'k' parse_si_k (by decide) (by decide)
      hn (by norm_num) hle
  · rw [show siMultiplier 'M' = 10 ^ 6 from by decide] at hle ⊢
    exact parse_size_digits_prefix_B n (10 ^ 6) 'M' parse_si_M (by decide) (by decide)
      hn (by norm_num) hle
  · rw [show siMultiplier 'G' = 10 ^ 9 from by decide] at hle ⊢
    exact parse_size_digits_prefix_B n (10 ^ 9) 'G' parse_si_G (by decide) (by decide)
      hn (by norm_num) hle
  · rw [show siMultiplier 'T' = 10 ^ 12 from by decide] at hle ⊢
    exact parse_size_digits_prefix_B n (10 ^ 12) 'T' parse_si_T (by decide) (by decide)
      hn (by norm_num) hle
  · rw [show siMultiplier 'P' = 10 ^ 15 from by decide] at hle ⊢
    exact parse_size_digits_prefix_B n (10 ^ 15) 'P' parse_si_P (by decide) (by decide)
      hn (by norm_num) hle

/-- Witness for the amended C2 at `n = 5`, `p = 'k'`. -/
theorem claim_C2_amended_witness :
    parse_size_string (natDigits 5 ++ ['k', 'B']) = some (.ok (5 * siMultiplier 'k')) :=
  claim_C2_amended 5 'k' (by decide) (by decide) (by decide)

/-- Claim C3, counterexample: a quantity far beyond the maximum machine byte
count is not reported as an error; `parse_size_string "2YB"` silently
saturates to `USIZE_MAX`. -/
theorem claim_C3_counterexample :
    parse_size_string ("2YB".toList) = some (.ok USIZE_MAX) ∧
      USIZE_MAX < 2 * 10 ^ 24 :=
  ⟨by decide, by decide⟩

/-- Claim C3 as amended: overflow never wraps — every successful parse
returns at most `USIZE_MAX` (out-of-range quantities saturate there instead
of erroring, as the counterexample shows) — and a mantissa that fails to
parse as a number yields the `InvalidMantissa` error. -/
theorem claim_C3_amended :
    (∀ (s : List Char) (v : Nat), parse_size_string s = some (.ok v) → v ≤ USIZE_MAX) ∧
      (∀ (s : List Char) (i : Nat), parseUsize s = none →
        position sizeSuffixStart s = some i → parseF64 (s.take i) = none →
        parse_size_string s = some (.error (invalidMantissaMsg (s.take i)))) :=
  ⟨fun _ _ h => (parse_size_ok_bounds h).2,
    fun _ _ h1 h2 h3 => parse_size_invalid_mantissa h1 h2 h3⟩

/-- Witness for the amended C3: the bound at "200", and the InvalidMantissa
error at "..B" (mantissa ".."). -/
theorem claim_C3_amended_witness :
    (200 : Nat) ≤ USIZE_MAX ∧
      parse_size_string ("..B".toList) =
        some (.error (invalidMantissaMsg (("..B".toList).take 2))) :=
  ⟨claim_C3_amended.1 ("200".toList) 200 (by decide),
    claim_C3_amended.2 ("..B".toList) 2 (by decide) (by decide) (by decide)⟩

/-- Claim C4, counterexample: the round trip fails above `2 ^ 53`.
`"9007199254740993"` parses (on the integer fast path) to `9007199254740993`,
but re-parsing its canonical form `"9007199254740993B"` goes through `f64`
and yields `9007199254740992`. -/
theorem claim_C4_counterexample :
    parse_size_string ("9007199254740993".toList) = some (.ok 9007199254740993) ∧
      parse_size_string ("9007199254740993B".toList) = some (.ok 9007199254740992) ∧
      (9007199254740992 : Nat) ≠ 9007199254740993 :=
  ⟨by decide, by decide, by decide⟩

/-- Claim C4 as amended: for every input that parses successfully to a value
`v ≤ 2 ^ 53` (binary64's exact-integer range), re-parsing the canonical
string form — the decimal digits of `v` followed by `"B"` — succeeds and
yields the same value. -/
theorem claim_C4_amended (s : List Char) (v : Nat)
    (h : parse_size_string s = some (.ok v)) (h53 : v ≤ 2 ^ 53) :
    parse_size_string (natDigits v ++ ['B']) = some (.ok v) :=
  parse_size_digits_B v (parse_size_ok_bounds h).1 h53

/-- Witness for the amended C4 at the input "200". -/
theorem claim_C4_amended_witness :
    parse_size_string (natDigits 200 ++ ['B']) = some (.ok 200) :=
  claim_C4_amended ("200".toList) 200 (by decide) (by decide)

/-- Claim C5: with a lowercase 'b' terminator in a two-character suffix the
SI-scaled value is divided by 8 before truncation to bytes (shown on the
exact range: the result is the truncated quotient `n * M / 8`), and in
particular `parse_size_string "1Mb"` equals exactly 125000. -/
theorem claim_C5_bit_suffix :
    (∀ (n M : Nat) (p : Char), parse_si_prefix p = .ok (.finite (M : ℚ)) →
      sizeSuffixStart p = true → isAsciiDigit p = false → 0 < n → 8 ≤ M →
      n * M ≤ 2 ^ 53 →
      parse_size_string (natDigits n ++ [p, 'b']) = some (.ok (n * M / 8))) ∧
      parse_size_string ("1Mb".toList) = some (.ok 125000) :=
  ⟨fun n M p h1 h2 h3 h4 h5 h6 => parse_size_digits_prefix_b n M p h1 h2 h3 h4 h5 h6,
    by decide⟩

/-- Witness for C5 at `n = 1`, `p = 'M'`. -/
theorem claim_C5_bit_suffix_witness :
    parse_size_string (natDigits 1 ++ ['M', 'b']) = some (.ok (1 * 10 ^ 6 / 8)) :=
  claim_C5_bit_suffix.1 1 (10 ^ 6) 'M' (by decide) (by decide) (by decide) (by decide)
    (by decide) (by decide)

/-- Claim C6: a string of only digits and dots that is not a plain integer is
rejected with `SuffixRequired`; with a unit suffix the same fractional
mantissa is accepted and SI-scaled: `"2.5"` fails with `SuffixRequired`
while `"2.5GB"` equals exactly 2500000000. -/
theorem claim_C6_suffix_required :
    (∀ s : List Char, (∀ c ∈ s, isAsciiDigit c = true ∨ c = '.') →
      parseUsize s = none → parse_size_string s = some (.error suffixRequiredMsg)) ∧
      parse_size_string ("2.5".toList) = some (.error suffixRequiredMsg) ∧
      parse_size_string ("2.5GB".toList) = some (.ok 2500000000) :=
  ⟨parse_size_all_digit_dot, by decide, by decide⟩

/-- Witness for C6 at the input "2.5". -/
theorem claim_C6_suffix_required_witness :
    parse_size_string ("2.5".toList) = some (.error suffixRequiredMsg) :=
  claim_C6_suffix_required.1 ("2.5".toList) (by decide) (by decide)

/-- Claim C7: malformed suffixes are rejected with their specific errors: an
unrecognized SI prefix letter yields `UnknownSiPrefix` (generally, and at
"10XB"), a terminator other than 'B'/'b' or a lone 'b' yields
`InvalidUnitTerminator` ("10b"), and a suffix longer than two characters
yields `SuffixTooLong` ("10kkB"). -/
theorem claim_C7_malformed_suffixes :
    (∀ c : Char, c ∉ (['k', 'M', 'G', 'T', 'P', 'E', 'Z', 'Y'] : List Char) →
      parse_si_prefix c = .error (unknownSiPrefixMsg c)) ∧
      parse_size_string ("10XB".toList) = some (.error (unknownSiPrefixMsg 'X')) ∧
      parse_size_string ("10b".toList) = some (.error invalidUnitTerminatorMsg) ∧
      parse_size_string ("10kkB".toList) = some (.error suffixTooLongMsg) := by
  refine ⟨?_, by decide, by decide, by decide⟩
  intro c hc
  simp only [List.mem_cons, List.mem_singleton, List.not_mem_nil, or_false, not_or] at hc
  obtain ⟨h1, h2, h3, h4, h5, h6, h7, h8⟩ := hc
  unfold parse_si_prefix
  rw [if_neg h1, if_neg h2, if_neg h3, if_neg h4, if_neg h5, if_neg h6, if_neg h7,
    if_neg h8]

/-- Witness for C7's general clause at the letter 'X'. -/
theorem claim_C7_malformed_suffixes_witness :
    parse_si_prefix 'X' = .error (unknownSiPrefixMsg 'X') :=
  claim_C7_malformed_suffixes.1 'X' (by decide)

/-- Claim C8: totality of the parser — for every input string the model
returns `some` result (a value or an error); the `none` case, which marks
the only potential panic (`str::split_at` off a char boundary), is
unreachable because every character before the split position is an ASCII
digit or dot, so the byte index always falls on a char boundary. -/
theorem claim_C8_totality : ∀ s : List Char, (parse_size_string s).isSome = true :=
  parse_size_total

/-- Claim C9: in the non-integer branch the suffix substring is non-empty —
the split position returned by `position` points at an existing character —
so popping the suffix's last character always yields `some` and the
`None`/"No suffix" arm is unreachable. -/
theorem claim_C9_suffix_nonempty :
    ∀ (s : List Char) (i : Nat), position sizeSuffixStart s = some i →
      ∃ r e, popLast (s.drop i) = some (r, e) :=
  fun _ _ h => popLast_of_ne_nil (drop_ne_nil_of_position h)

/-- Witness for C9 at the input "2.5GB", whose suffix starts at index 3. -/
theorem claim_C9_suffix_nonempty_witness :
    ∃ r e, popLast (("2.5GB".toList).drop 3) = some (r, e) :=
  claim_C9_suffix_nonempty ("2.5GB".toList) 3 (by decide)

/-- Claim C10: the plain-integer fast path accepts a leading '+': for every
positive machine-word integer `n`, parsing "+" followed by the decimal
digits of `n` succeeds and returns `n`; in particular `"+5"` parses to 5. -/
theorem claim_C10_plus_sign :
    (∀ n : Nat, 0 < n → n ≤ USIZE_MAX →
      parse_size_string ('+' :: natDigits n) = some (.ok n)) ∧
      parse_size_string ("+5".toList) = some (.ok 5) :=
  ⟨fun n h0 hle => parse_size_plus_natDigits n h0 hle, by decide⟩

/-- Witness for C10 at `n = 5`. -/
theorem claim_C10_plus_sign_witness :
    parse_size_string ('+' :: natDigits 5) = some (.ok 5) :=
  claim_C10_plus_sign.1 5 (by decide) (by decide)
